import Mathlib

/-!
A shallow embedding of the table engine of this repository (`src/db.py`):
a `Table` holds a schema, a primary-key column name, a list of rows
(each row a Python dict, modelled as an association list), and an index
mapping stringified primary-key values to row positions.  The `Database`
catalog maps table names to tables and lazily loads persisted files.

Python dicts are modelled as association lists with first-match lookup
and update-in-place-or-append assignment, matching insertion-ordered
Python dict semantics.  Python `str()` on the values the engine handles
is modelled by `stringify`; `str(None)` is the string "None", which is
what `row.get(col)` produces for a missing column.  Raised exceptions
are modelled by `DBError`; each public operation is a step function on an
explicit state (table plus the table's on-disk file), returning the
unchanged state when the Python code raises before mutating.
-/

/-- A value stored in a row: the engine handles JSON scalars; `vNone`
models Python `None` (JSON `null`). -/
inductive Value where
  | vStr (s : String)
  | vInt (n : Int)
  | vNone
deriving DecidableEq, Repr

/-- Python `str()` on a stored value. -/
def stringify : Value → String
  | .vStr s => s
  | .vInt n => toString n
  | .vNone => "None"

/-- First-match association-list lookup: Python `d.get(k)` / `d[k]`. -/
def alookup {α : Type} : List (String × α) → String → Option α
  | [], _ => none
  | (k', v) :: rest, k => if k' = k then some v else alookup rest k

/-- A row: a Python dict from column name to value. -/
abbrev Row := List (String × Value)

/-- A schema: an ordered mapping from column name to declared type tag. -/
abbrev Schema := List (String × String)

/-- The primary-key index: stringified key value to row position. -/
abbrev Index := List (String × Nat)

/-- Python `str(row.get(c))`: stringify the value at column `c`, or
"None" when the column is absent. -/
def strAt (r : Row) (c : String) : String :=
  match alookup r c with
  | some v => stringify v
  | none => "None"

/-- Python `str(w)` for an optional argument defaulting to `None`. -/
def strOfOpt : Option Value → String
  | some v => stringify v
  | none => "None"

/-- The contents of a persisted table file: `save` writes exactly the
fields `schema`, `pk_col` and `rows` (`db.py`, `Table.save`). -/
structure FileData where
  schema : Schema
  pk_col : String
  rows : List Row
deriving DecidableEq, Repr

/-- In-memory table state (`db.py`, class `Table`). -/
structure Table where
  name : String
  schema : Schema
  pk_col : String
  rows : List Row
  index : Index
deriving DecidableEq, Repr

/-- Model of `Table.save`: the document written to the table's file. -/
def saveData (t : Table) : FileData :=
  { schema := t.schema, pk_col := t.pk_col, rows := t.rows }

/-- Python dict assignment `d[k] = v`: overwrite in place, else append. -/
def setIdx : Index → String → Nat → Index
  | [], k, v => [(k, v)]
  | (k', v') :: rest, k, v =>
      if k' = k then (k, v) :: rest else (k', v') :: setIdx rest k v

/-- The loop body of `Table.rebuild_index`: `index[str(row.get(pk))] = idx`
for each row in order, starting from the accumulator. -/
def rebuildIndexAux (pk : String) : List Row → Nat → Index → Index
  | [], _, acc => acc
  | r :: rest, i, acc => rebuildIndexAux pk rest (i + 1) (setIdx acc (strAt r pk) i)

/-- Model of `Table.rebuild_index`: fresh dict, then one assignment per row. -/
def rebuildIndex (rows : List Row) (pk : String) : Index :=
  rebuildIndexAux pk rows 0 []

/-- Model of `Table.__init__` followed by the `self.load()` it performs: fields are
set from the arguments, and when the table's file exists its `rows` are
read and the index rebuilt (`Table.load` reads only `rows`; schema and
`pk_col` stay as constructed). -/
def tableInit (name : String) (schema : Schema) (pk : String)
    (file : Option FileData) : Table :=
  match file with
  | none => { name := name, schema := schema, pk_col := pk, rows := [], index := [] }
  | some f => { name := name, schema := schema, pk_col := pk
                rows := f.rows
                index := rebuildIndex f.rows pk }

/-- The error taxonomy: one constructor per distinct raise site of the
engine (`db.py` raises `ValueError`/`KeyError`/`IndexError`; the spec
names the `ValueError`s by site). -/
inductive DBError where
  | schemaError
  | duplicateKey
  | keyNotFound
  | keyError
  | indexError
  | tableExists
  | tableNotFound
deriving DecidableEq, Repr

/-- The first element of `xs` that is not a member of `ys`, if any:
the first offending column found by a `validate_schema` loop. -/
def firstNotIn (xs ys : List String) : Option String :=
  match xs with
  | [] => none
  | c :: rest => if c ∈ ys then firstNotIn rest ys else some c

/-- Model of `Table.validate_schema`: first an extra-column check over the row's
keys, then a missing-column check over the schema's keys; `none` means
the row validates. -/
def validateErr (schema : Schema) (r : Row) : Option DBError :=
  match firstNotIn (r.map Prod.fst) (schema.map Prod.fst) with
  | some _ => some .schemaError
  | none =>
      match firstNotIn (schema.map Prod.fst) (r.map Prod.fst) with
      | some _ => some .schemaError
      | none => none

/-- The observable result of one engine operation: the returned message
or the raised error. -/
inductive DBResult where
  | ok (msg : String)
  | err (e : DBError)
deriving DecidableEq, Repr

/-- A table together with its on-disk file (`none`: no file yet). -/
structure TState where
  table : Table
  disk : Option FileData
deriving DecidableEq, Repr

/-- Model of `Table.insert`: validate, compute `str(row[pk])` (a missing primary
key raises `KeyError`), reject a duplicate key, then append the row, set
`index[key] = len(rows) - 1` and save.  A raise leaves the state as it
was, since every raise site precedes the first mutation. -/
def insertStep (s : TState) (r : Row) : DBResult × TState :=
  match validateErr s.table.schema r with
  | some e => (.err e, s)
  | none =>
      match alookup r s.table.pk_col with
      | none => (.err .keyError, s)
      | some v =>
          let key := stringify v
          if (alookup s.table.index key).isSome then (.err .duplicateKey, s)
          else
            let rows' := s.table.rows ++ [r]
            let t' : Table := { s.table with
                                rows := rows'
                                index := setIdx s.table.index key (rows'.length - 1) }
            (.ok ("Inserted 1 row into " ++ s.table.name ++ "."),
             { table := t', disk := some (saveData t') })

/-- Model of `Table.select`: the falsy-column branch returns all rows; the
primary-key branch is an index lookup (`rows[idx]` raises `IndexError`
when the stored position is out of range); otherwise a linear scan
comparing stringified values. -/
def selectOp (t : Table) (wc : Option String) (wv : Option Value) :
    Except DBError (List Row) :=
  match wc with
  | none => .ok t.rows
  | some c =>
      if c = "" then .ok t.rows
      else if c = t.pk_col then
        match alookup t.index (strOfOpt wv) with
        | some i =>
            match t.rows.get? i with
            | some r => .ok [r]
            | none => .error .indexError
        | none => .ok []
      else .ok (t.rows.filter (fun r => strAt r c == strOfOpt wv))

/-- The list comprehension in `Table.delete`: keep the rows whose
stringified primary-key value differs from `key`; `row[pk]` on a row
missing the primary-key column raises `KeyError` (`none` here), before
any state is mutated. -/
def filterRows : List Row → String → String → Option (List Row)
  | [], _, _ => some []
  | r :: rest, pk, key =>
      match alookup r pk with
      | none => none
      | some v =>
          match filterRows rest pk key with
          | none => none
          | some rs => some (if stringify v = key then rs else r :: rs)

/-- Model of `Table.delete`: a key absent from the index raises; otherwise the
rows are filtered, the index rebuilt from scratch, and the state saved. -/
def deleteStep (s : TState) (v : Value) : DBResult × TState :=
  let key := stringify v
  if (alookup s.table.index key).isSome then
    match filterRows s.table.rows s.table.pk_col key with
    | none => (.err .keyError, s)
    | some rows' =>
        let t' : Table := { s.table with
                            rows := rows'
                            index := rebuildIndex rows' s.table.pk_col }
        (.ok "Row deleted.", { table := t', disk := some (saveData t') })
  else (.err .keyNotFound, s)

/-- The catalog state (`db.py`, class `Database`) together with the data
directory: one optional file per table name. -/
structure DBState where
  tables : List (String × Table)
  fs : List (String × FileData)
deriving DecidableEq, Repr

/-- Model of `Database.create_table`: reject a name already registered, else
construct the table (which self-loads from an existing file) and return
the creation message. -/
def createTableStep (d : DBState) (name : String) (schema : Schema)
    (pk : String) : Except DBError (String × DBState) :=
  if (alookup d.tables name).isSome then .error .tableExists
  else
    let t := tableInit name schema pk (alookup d.fs name)
    .ok ("Table '" ++ name ++ "' created/loaded.",
         { d with tables := d.tables ++ [(name, t)] })

/-- What `Database.get_table` returns: a `Table` (registered branch) or,
in the lazy-load branch, the string that `create_table` returned. -/
inductive GetResult where
  | table (t : Table)
  | message (m : String)
deriving DecidableEq, Repr

/-- Model of `Database.get_table`: return the registered table; otherwise, when a
persisted file exists, read its metadata and return the result of
`create_table` (a message string, as the source does); otherwise raise. -/
def getTableStep (d : DBState) (name : String) :
    Except DBError (GetResult × DBState) :=
  match alookup d.tables name with
  | some t => .ok (.table t, d)
  | none =>
      match alookup d.fs name with
      | some meta =>
          match createTableStep d name meta.schema meta.pk_col with
          | .ok (msg, d') => .ok (.message msg, d')
          | .error e => .error e
      | none => .error .tableNotFound

/-- One public mutating operation on a table. -/
inductive Op where
  | ins (r : Row)
  | del (v : Value)
deriving DecidableEq, Repr

/-- Run one operation, keeping the state an error leaves behind. -/
def applyOp (s : TState) : Op → TState
  | .ins r => (insertStep s r).2
  | .del v => (deleteStep s v).2

/-- Run a sequence of operations. -/
def runOps (s : TState) (ops : List Op) : TState :=
  ops.foldl applyOp s

/-- A freshly created table with no file on disk. -/
def emptyState (name : String) (schema : Schema) (pk : String) : TState :=
  { table := tableInit name schema pk none, disk := none }

/-- A table constructed over an existing persisted file, as the catalog's
lazy-load path does. -/
def loadedState (name : String) (schema : Schema) (pk : String)
    (f : FileData) : TState :=
  { table := tableInit name schema pk (some f), disk := some f }

/-- Reloading a table from its persisted file in a fresh process: the
catalog reads `schema` and `pk_col` from the file and constructs the
table, whose `__init__` then loads the file's `rows` and rebuilds the
index (`Database.get_table` composed with `Table.__init__`/`load`). -/
def reload (name : String) (f : FileData) : Table :=
  tableInit name f.schema f.pk_col (some f)

/-- The stringified primary-key value of each row, in row order. -/
def pkKeys (pk : String) (rows : List Row) : List String :=
  rows.map (fun r => strAt r pk)

/-- The table invariant: stringified primary-key values are pairwise
distinct, and the index is exactly the one `rebuild_index` produces. -/
def WF (t : Table) : Prop :=
  (pkKeys t.pk_col t.rows).Nodup ∧ t.index = rebuildIndex t.rows t.pk_col

/-- Index/rows consistency as the spec states it: each row's stringified
primary-key value maps to the row's position, the index has exactly one
entry per row, and stringified primary-key values are pairwise distinct. -/
def IndexConsistent (t : Table) : Prop :=
  (∀ i, i < t.rows.length →
    alookup t.index (strAt (t.rows.getD i []) t.pk_col) = some i)
  ∧ t.index.length = t.rows.length
  ∧ (pkKeys t.pk_col t.rows).Nodup

instance : DecidablePred WF := fun t => by
  unfold WF; infer_instance

instance (t : Table) : Decidable (IndexConsistent t) := by
  unfold IndexConsistent; infer_instance

instance {ε α : Type} [DecidableEq ε] [DecidableEq α] :
    DecidableEq (Except ε α) := fun a b =>
  match a, b with
  | .ok x, .ok y =>
      if h : x = y then .isTrue (congrArg Except.ok h)
      else .isFalse (fun hc => h (Except.ok.inj hc))
  | .error x, .error y =>
      if h : x = y then .isTrue (congrArg Except.error h)
      else .isFalse (fun hc => h (Except.error.inj hc))
  | .ok _, .error _ => .isFalse (fun hc => Except.noConfusion hc)
  | .error _, .ok _ => .isFalse (fun hc => Except.noConfusion hc)

/-! ### Column-name helpers -/

/-- The column names of a row (the Python dict's keys, in order). -/
def rowCols (r : Row) : List String := r.map Prod.fst

/-- The column names of a schema (the Python dict's keys, in order). -/
def schemaCols (schema : Schema) : List String := schema.map Prod.fst

/-! ### Proof-side views of the rebuilt index -/

/-- The index `rebuild_index` produces when all keys are distinct: one
entry per row, in row order, positions starting at `i`. -/
def zipKeys (pk : String) : List Row → Nat → Index
  | [], _ => []
  | r :: rest, i => (strAt r pk, i) :: zipKeys pk rest (i + 1)

/-- The position of the first row whose stringified primary-key value is
`k`. -/
def findRow (pk k : String) : List Row → Option Nat
  | [] => none
  | r :: rest =>
      if strAt r pk = k then some 0 else (findRow pk k rest).map (· + 1)

/-! ### Concrete example states used to exercise the operations -/

/-- A two-column example schema. -/
def exSchema : Schema := [("id", "str"), ("name", "str")]

/-- An example row with primary key "1". -/
def exRow1 : Row := [("id", Value.vStr "1"), ("name", Value.vStr "Ann")]

/-- An example row with primary key "2". -/
def exRow2 : Row := [("id", Value.vStr "2"), ("name", Value.vStr "Bob")]

/-- An example two-row table whose index matches its rows. -/
def exTable : Table :=
  { name := "students", schema := exSchema, pk_col := "id"
    rows := [exRow1, exRow2]
    index := [("1", 0), ("2", 1)] }

/-- The example table paired with an empty disk. -/
def exState : TState := { table := exTable, disk := none }

/-- A one-row, one-column table (schema is just "id"). -/
def oneRowTable : Table :=
  { name := "t", schema := [("id", "str")], pk_col := "id"
    rows := [[("id", Value.vStr "1")]]
    index := [("1", 0)] }

/-- A table whose primary-key column is the empty string: constructible
through the REPL (`shlex` yields an empty token for `""`), and its index
is consistent with its rows. -/
def emptyPkTable : Table :=
  { name := "t", schema := [("", "str")], pk_col := ""
    rows := [[("", Value.vStr "1")], [("", Value.vStr "2")]]
    index := [("1", 0), ("2", 1)] }

/-- A persisted file for a table named "users". -/
def usersFile : FileData :=
  { schema := [("id", "str")], pk_col := "id", rows := [[("id", Value.vStr "1")]] }

/-- A catalog with no live tables but one persisted file. -/
def freshCatalog : DBState := { tables := [], fs := [("users", usersFile)] }

/-! ### Lemmas about `alookup` and `setIdx` -/

theorem alookup_eq_none {α : Type} (xs : List (String × α)) (k : String)
    (h : k ∉ xs.map Prod.fst) : alookup xs k = none := by
  induction xs with
  | nil => rfl
  | cons p rest ih =>
      obtain ⟨k', v⟩ := p
      simp only [List.map_cons, List.mem_cons, not_or] at h
      have hne : k' ≠ k := fun hk => h.1 hk.symm
      simp only [alookup, if_neg hne]
      exact ih h.2

theorem setIdx_append (ix : Index) (k : String) (v : Nat)
    (h : k ∉ ix.map Prod.fst) : setIdx ix k v = ix ++ [(k, v)] := by
  induction ix with
  | nil => rfl
  | cons p rest ih =>
      obtain ⟨k', v'⟩ := p
      simp only [List.map_cons, List.mem_cons, not_or] at h
      have hne : k' ≠ k := fun hk => h.1 hk.symm
      simp only [setIdx, if_neg hne, List.cons_append, List.cons.injEq, true_and]
      exact ih h.2

theorem zipKeys_length (pk : String) (rows : List Row) (i : Nat) :
    (zipKeys pk rows i).length = rows.length := by
  induction rows generalizing i with
  | nil => rfl
  | cons r rest ih => simp [zipKeys, ih]

theorem zipKeys_fst (pk : String) (rows : List Row) (i : Nat) :
    (zipKeys pk rows i).map Prod.fst = pkKeys pk rows := by
  induction rows generalizing i with
  | nil => rfl
  | cons r rest ih => simp [zipKeys, pkKeys, ih (i + 1), List.map_cons]

theorem zipKeys_append (pk : String) (xs ys : List Row) (i : Nat) :
    zipKeys pk (xs ++ ys) i = zipKeys pk xs i ++ zipKeys pk ys (i + xs.length) := by
  induction xs generalizing i with
  | nil => simp [zipKeys]
  | cons r rest ih =>
      simp only [List.cons_append, zipKeys, List.length_cons, List.append_eq]
      rw [ih (i + 1)]
      have harith : i + 1 + rest.length = i + (rest.length + 1) := by omega
      rw [harith]

theorem alookup_zipKeys (pk : String) (rows : List Row) (i : Nat) (k : String) :
    alookup (zipKeys pk rows i) k = (findRow pk k rows).map (· + i) := by
  induction rows generalizing i with
  | nil => rfl
  | cons r rest ih =>
      simp only [zipKeys, findRow, alookup]
      by_cases h : strAt r pk = k
      · simp [h]
      · simp only [if_neg h, ih (i + 1)]
        cases findRow pk k rest with
        | none => rfl
        | some j =>
            simp only [Option.map_some']
            congr 1
            omega

theorem pkKeys_cons (pk : String) (r : Row) (rest : List Row) :
    pkKeys pk (r :: rest) = strAt r pk :: pkKeys pk rest := rfl

theorem pkKeys_append (pk : String) (xs ys : List Row) :
    pkKeys pk (xs ++ ys) = pkKeys pk xs ++ pkKeys pk ys := by
  simp [pkKeys]

theorem strAt_eq_stringify (r : Row) (c : String) (v : Value)
    (h : alookup r c = some v) : strAt r c = stringify v := by
  simp [strAt, h]

theorem strAt_eq_none (r : Row) (c : String)
    (h : alookup r c = none) : strAt r c = "None" := by
  simp [strAt, h]

theorem findRow_eq_none_iff (pk k : String) (rows : List Row) :
    findRow pk k rows = none ↔ k ∉ pkKeys pk rows := by
  induction rows with
  | nil => simp [findRow, pkKeys]
  | cons r rest ih =>
      rw [pkKeys_cons]
      simp only [findRow, List.mem_cons]
      by_cases h : strAt r pk = k
      · simp [h]
      · rw [if_neg h]
        simp only [Option.map_eq_none', ih, not_or]
        constructor
        · intro hn
          exact ⟨fun he => h he.symm, hn⟩
        · intro hn
          exact hn.2

theorem getD_mem_pkKeys (pk : String) (rows : List Row) (i : Nat)
    (h : i < rows.length) : strAt (rows.getD i []) pk ∈ pkKeys pk rows := by
  induction rows generalizing i with
  | nil => simp at h
  | cons r rest ih =>
      cases i with
      | zero => simp [pkKeys_cons, List.getD]
      | succ j =>
          rw [pkKeys_cons]
          simp only [List.getD, List.get?, List.mem_cons]
          right
          have hj : j < rest.length := by simpa using h
          simpa [List.getD] using ih j hj

theorem findRow_some (pk k : String) (rows : List Row) (j : Nat)
    (h : findRow pk k rows = some j) :
    rows.get? j = some (rows.getD j []) ∧ strAt (rows.getD j []) pk = k := by
  induction rows generalizing j with
  | nil => simp [findRow] at h
  | cons r rest ih =>
      simp only [findRow] at h
      by_cases hr : strAt r pk = k
      · rw [if_pos hr] at h
        obtain rfl : j = 0 := by simpa using h.symm
        simpa [List.get?, List.getD] using hr
      · rw [if_neg hr] at h
        obtain ⟨j', hj', rfl⟩ := Option.map_eq_some'.mp h
        have := ih j' hj'
        simpa [List.get?, List.getD] using this

theorem findRow_getD (pk : String) (rows : List Row)
    (hnd : (pkKeys pk rows).Nodup) (i : Nat) (hi : i < rows.length) :
    findRow pk (strAt (rows.getD i []) pk) rows = some i := by
  induction rows generalizing i with
  | nil => simp at hi
  | cons r rest ih =>
      rw [pkKeys_cons, List.nodup_cons] at hnd
      cases i with
      | zero => simp [findRow, List.getD]
      | succ j =>
          have hj : j < rest.length := by simpa using hi
          have hgd : (r :: rest).getD (j + 1) [] = rest.getD j [] := by
            simp [List.getD, List.get?]
          rw [hgd]
          have hmem : strAt (rest.getD j []) pk ∈ pkKeys pk rest :=
            getD_mem_pkKeys pk rest j hj
          have hne : ¬ strAt r pk = strAt (rest.getD j []) pk := by
            intro he
            exact hnd.1 (he ▸ hmem)
          simp only [findRow, if_neg hne, ih hnd.2 j hj, Option.map_some']

theorem rebuildIndexAux_eq_zipKeys (pk : String) (rows : List Row) :
    ∀ (i : Nat) (acc : Index), (pkKeys pk rows).Nodup →
      (∀ x ∈ pkKeys pk rows, x ∉ acc.map Prod.fst) →
      rebuildIndexAux pk rows i acc = acc ++ zipKeys pk rows i := by
  induction rows with
  | nil => intro i acc _ _; simp [rebuildIndexAux, zipKeys]
  | cons r rest ih =>
      intro i acc hnd hacc
      rw [pkKeys_cons, List.nodup_cons] at hnd
      have hhead : strAt r pk ∉ acc.map Prod.fst :=
        hacc _ (by rw [pkKeys_cons]; exact List.mem_cons_self _ _)
      simp only [rebuildIndexAux, setIdx_append acc _ i hhead]
      rw [ih (i + 1) (acc ++ [(strAt r pk, i)]) hnd.2 ?_]
      · simp [zipKeys]
      · intro x hx
        simp only [List.map_append, List.mem_append, List.map_cons,
          List.map_nil, List.mem_singleton, not_or]
        refine ⟨hacc x ?_, fun he => hnd.1 (he ▸ hx)⟩
        rw [pkKeys_cons]
        exact List.mem_cons_of_mem _ hx

theorem rebuildIndex_eq_zipKeys (pk : String) (rows : List Row)
    (hnd : (pkKeys pk rows).Nodup) :
    rebuildIndex rows pk = zipKeys pk rows 0 := by
  rw [rebuildIndex, rebuildIndexAux_eq_zipKeys pk rows 0 [] hnd (by simp)]
  rfl

/-! ### Consequences of the invariant -/

theorem WF_alookup (t : Table) (h : WF t) (k : String) :
    alookup t.index k = findRow t.pk_col k t.rows := by
  rw [h.2, rebuildIndex_eq_zipKeys _ _ h.1, alookup_zipKeys]
  cases findRow t.pk_col k t.rows with
  | none => rfl
  | some j => simp

theorem WF_index_length (t : Table) (h : WF t) :
    t.index.length = t.rows.length := by
  rw [h.2, rebuildIndex_eq_zipKeys _ _ h.1, zipKeys_length]

theorem WF_IndexConsistent (t : Table) (h : WF t) : IndexConsistent t := by
  refine ⟨?_, WF_index_length t h, h.1⟩
  intro i hi
  rw [WF_alookup t h]
  exact findRow_getD t.pk_col t.rows h.1 i hi

/-! ### Invariant preservation by the public operations -/

theorem WF_insertStep (s : TState) (r : Row) (h : WF s.table) :
    WF ((insertStep s r).2).table := by
  unfold insertStep
  cases hv : validateErr s.table.schema r with
  | some e => exact h
  | none =>
      cases hp : alookup r s.table.pk_col with
      | none => exact h
      | some v =>
          cases hd : alookup s.table.index (stringify v) with
          | some j => simp only [hd, Option.isSome_some, if_true]; exact h
          | none =>
              simp only [hd, Option.isSome_none, Bool.false_eq_true, if_false]
              have hnotin : stringify v ∉ pkKeys s.table.pk_col s.table.rows := by
                rw [WF_alookup s.table h] at hd
                exact (findRow_eq_none_iff _ _ _).mp hd
              have hkey : strAt r s.table.pk_col = stringify v :=
                strAt_eq_stringify r s.table.pk_col v hp
              have hnd' : (pkKeys s.table.pk_col (s.table.rows ++ [r])).Nodup := by
                rw [pkKeys_append]
                rw [List.nodup_append]
                refine ⟨h.1, List.nodup_singleton _, ?_⟩
                intro x hx hx'
                rw [pkKeys_cons] at hx'
                simp only [pkKeys, List.map_nil, List.mem_singleton] at hx'
                rw [hkey] at hx'
                exact hnotin (hx' ▸ hx)
              constructor
              · exact hnd'
              · show setIdx s.table.index (stringify v) _ =
                  rebuildIndex (s.table.rows ++ [r]) s.table.pk_col
                rw [rebuildIndex_eq_zipKeys _ _ hnd', zipKeys_append]
                have hfstfresh : stringify v ∉ (zipKeys s.table.pk_col s.table.rows 0).map Prod.fst := by
                  rw [zipKeys_fst]
                  exact hnotin
                rw [h.2, rebuildIndex_eq_zipKeys _ _ h.1,
                  setIdx_append _ _ _ hfstfresh]
                simp [zipKeys, hkey]

theorem filterRows_some_eq (pk key : String) (rows rows' : List Row)
    (h : filterRows rows pk key = some rows') :
    rows' = rows.filter (fun r => strAt r pk != key) := by
  induction rows generalizing rows' with
  | nil =>
      simp only [filterRows, Option.some.injEq] at h
      simp [← h]
  | cons r rest ih =>
      simp only [filterRows] at h
      cases hp : alookup r pk with
      | none => rw [hp] at h; exact absurd h (by simp)
      | some v =>
          rw [hp] at h
          cases hf : filterRows rest pk key with
          | none => rw [hf] at h; exact absurd h (by simp)
          | some rs =>
              rw [hf] at h
              simp only [Option.some.injEq] at h
              have hrs := ih rs hf
              have hkey : strAt r pk = stringify v := strAt_eq_stringify r pk v hp
              rw [List.filter_cons, hkey]
              by_cases he : stringify v = key
              · rw [if_pos he] at h
                simp [he, ← h, hrs]
              · rw [if_neg he] at h
                simp [he, ← h, hrs]

theorem filterRows_of_allSome (pk key : String) (rows : List Row)
    (h : ∀ r ∈ rows, (alookup r pk).isSome) :
    filterRows rows pk key = some (rows.filter (fun r => strAt r pk != key)) := by
  induction rows with
  | nil => rfl
  | cons r rest ih =>
      have hr : (alookup r pk).isSome := h r (List.mem_cons_self _ _)
      obtain ⟨v, hv⟩ := Option.isSome_iff_exists.mp hr
      have hrest := ih (fun x hx => h x (List.mem_cons_of_mem _ hx))
      have hkey : strAt r pk = stringify v := strAt_eq_stringify r pk v hv
      simp only [filterRows, hv, hrest, List.filter_cons, hkey]
      by_cases he : stringify v = key
      · simp [he]
      · simp [he]

theorem WF_deleteStep (s : TState) (v : Value) (h : WF s.table) :
    WF ((deleteStep s v).2).table := by
  unfold deleteStep
  cases hd : alookup s.table.index (stringify v) with
  | none => simp only [hd, Option.isSome_none, Bool.false_eq_true, if_false]; exact h
  | some j =>
      simp only [hd, Option.isSome_some, if_true]
      cases hf : filterRows s.table.rows s.table.pk_col (stringify v) with
      | none => exact h
      | some rows' =>
          have hrs := filterRows_some_eq _ _ _ _ hf
          constructor
          · subst hrs
            have hsub : (pkKeys s.table.pk_col
                (s.table.rows.filter (fun r => strAt r s.table.pk_col != stringify v))).Sublist
                (pkKeys s.table.pk_col s.table.rows) :=
              List.Sublist.map _ (List.filter_sublist _)
            exact List.Nodup.sublist hsub h.1
          · rfl

theorem WF_applyOp (s : TState) (op : Op) (h : WF s.table) :
    WF ((applyOp s op).table) := by
  cases op with
  | ins r => exact WF_insertStep s r h
  | del v => exact WF_deleteStep s v h

theorem WF_runOps (ops : List Op) (s : TState) (h : WF s.table) :
    WF ((runOps s ops).table) := by
  induction ops generalizing s with
  | nil => exact h
  | cons op ops ih =>
      rw [runOps, List.foldl_cons]
      exact ih _ (WF_applyOp s op h)

theorem WF_emptyState (name : String) (schema : Schema) (pk : String) :
    WF (emptyState name schema pk).table := by
  constructor
  · simp [emptyState, tableInit, pkKeys]
  · rfl

theorem WF_loadedState (name : String) (schema : Schema) (pk : String)
    (f : FileData) (hnd : (pkKeys pk f.rows).Nodup) :
    WF (loadedState name schema pk f).table := by
  exact ⟨hnd, rfl⟩

/-! ### Filter characterizations for `select` and `delete` -/

theorem filter_bne_all (pk k : String) (rows : List Row)
    (h : k ∉ pkKeys pk rows) :
    rows.filter (fun r => strAt r pk != k) = rows := by
  induction rows with
  | nil => rfl
  | cons r rest ih =>
      rw [pkKeys_cons, List.mem_cons, not_or] at h
      have hne : strAt r pk ≠ k := fun he => h.1 he.symm
      have hb : (strAt r pk != k) = true := by simp [hne]
      simp only [List.filter_cons, hb, if_true, ih h.2]

theorem filter_bne_length (pk k : String) (rows : List Row)
    (hnd : (pkKeys pk rows).Nodup) (hm : k ∈ pkKeys pk rows) :
    (rows.filter (fun r => strAt r pk != k)).length + 1 = rows.length := by
  induction rows with
  | nil => simp [pkKeys] at hm
  | cons r rest ih =>
      rw [pkKeys_cons, List.nodup_cons] at hnd
      rw [pkKeys_cons, List.mem_cons] at hm
      rw [List.filter_cons]
      by_cases he : strAt r pk = k
      · have hnot : k ∉ pkKeys pk rest := he ▸ hnd.1
        simp only [he, bne_self_eq_false, Bool.false_eq_true, if_false]
        rw [filter_bne_all pk k rest hnot]
        simp
      · have hm' : k ∈ pkKeys pk rest := hm.resolve_left (fun hk => he hk.symm)
        have hb : (strAt r pk != k) = true := by simp [he]
        simp only [hb, if_true, List.length_cons]
        rw [← ih hnd.2 hm']

theorem filter_beq_nil (pk k : String) (rows : List Row)
    (h : k ∉ pkKeys pk rows) :
    rows.filter (fun r => strAt r pk == k) = [] := by
  induction rows with
  | nil => rfl
  | cons r rest ih =>
      rw [pkKeys_cons, List.mem_cons, not_or] at h
      have hne : strAt r pk ≠ k := fun he => h.1 he.symm
      have hb : (strAt r pk == k) = false := by simp [hne]
      simp only [List.filter_cons, hb, Bool.false_eq_true, if_false]
      exact ih h.2

theorem filter_beq_single (pk k : String) (rows : List Row) (j : Nat)
    (hnd : (pkKeys pk rows).Nodup) (hf : findRow pk k rows = some j) :
    rows.filter (fun r => strAt r pk == k) = [rows.getD j []] := by
  induction rows generalizing j with
  | nil => simp [findRow] at hf
  | cons r rest ih =>
      rw [pkKeys_cons, List.nodup_cons] at hnd
      simp only [findRow] at hf
      by_cases hr : strAt r pk = k
      · rw [if_pos hr] at hf
        obtain rfl : j = 0 := by simpa using hf.symm
        have hnot : k ∉ pkKeys pk rest := hr ▸ hnd.1
        simp only [List.filter_cons, hr, beq_self_eq_true, if_true,
          filter_beq_nil pk k rest hnot]
        simp [List.getD]
      · rw [if_neg hr] at hf
        obtain ⟨j', hj', rfl⟩ := Option.map_eq_some'.mp hf
        have hb : (strAt r pk == k) = false := by simp [hr]
        simp only [List.filter_cons, hb, Bool.false_eq_true, if_false]
        rw [ih j' hnd.2 hj']
        simp [List.getD, List.get?]

/-! ### Characterization of `validate_schema` -/

theorem firstNotIn_eq_none_iff (xs ys : List String) :
    firstNotIn xs ys = none ↔ ∀ c ∈ xs, c ∈ ys := by
  induction xs with
  | nil => simp [firstNotIn]
  | cons c rest ih =>
      simp only [firstNotIn]
      by_cases h : c ∈ ys
      · simp [h, ih]
      · simp [h]

theorem validateErr_eq_none_iff (schema : Schema) (r : Row) :
    validateErr schema r = none ↔
      (∀ c, c ∈ rowCols r ↔ c ∈ schemaCols schema) := by
  unfold validateErr rowCols schemaCols
  cases h1 : firstNotIn (r.map Prod.fst) (schema.map Prod.fst) with
  | some c =>
      simp only [reduceCtorEq, false_iff, not_forall]
      have : ¬ ∀ x ∈ r.map Prod.fst, x ∈ schema.map Prod.fst := by
        rw [← firstNotIn_eq_none_iff]
        simp [h1]
      push_neg at this
      obtain ⟨x, hx, hx'⟩ := this
      exact ⟨x, by simp [hx, hx']⟩
  | none =>
      cases h2 : firstNotIn (schema.map Prod.fst) (r.map Prod.fst) with
      | some c =>
          simp only [reduceCtorEq, false_iff, not_forall]
          have : ¬ ∀ x ∈ schema.map Prod.fst, x ∈ r.map Prod.fst := by
            rw [← firstNotIn_eq_none_iff]
            simp [h2]
          push_neg at this
          obtain ⟨x, hx, hx'⟩ := this
          exact ⟨x, by simp [hx, hx']⟩
      | none =>
          simp only [true_iff]
          have ha := (firstNotIn_eq_none_iff _ _).mp h1
          have hb := (firstNotIn_eq_none_iff _ _).mp h2
          intro c
          exact ⟨fun hc => ha c hc, fun hc => hb c hc⟩

theorem validateErr_some (schema : Schema) (r : Row) (e : DBError)
    (h : validateErr schema r = some e) : e = DBError.schemaError := by
  unfold validateErr at h
  cases h1 : firstNotIn (r.map Prod.fst) (schema.map Prod.fst) with
  | some c => rw [h1] at h; simpa using h.symm
  | none =>
      rw [h1] at h
      cases h2 : firstNotIn (schema.map Prod.fst) (r.map Prod.fst) with
      | some c => rw [h2] at h; simpa using h.symm
      | none => rw [h2] at h; simp at h

theorem saveData_pkKeys_nodup (t : Table) (h : WF t) :
    (pkKeys t.pk_col (saveData t).rows).Nodup :=
  h.1

/-! ### The claims -/

/-- C1: For every table and every sequence of successful insert and
delete operations starting from an empty or loaded table (loaded from a
persisted file, whose stringified primary-key values are distinct — as
`save` of any invariant-satisfying table produces), afterwards the index
is exactly consistent with the rows: each row's stringified primary-key
value maps to the row's position, the index has exactly one entry per
row, and stringified primary-key values are unique across rows.  Failed
operations leave the state unchanged, so running an arbitrary operation
list covers every sequence of successful operations. -/
theorem claim_C1_index_consistency (name : String) (schema : Schema)
    (pk : String) (s0 : TState) (ops : List Op)
    (h : s0 = emptyState name schema pk ∨
      ∃ f : FileData, (pkKeys pk f.rows).Nodup ∧ s0 = loadedState name schema pk f) :
    IndexConsistent (runOps s0 ops).table := by
  have hwf : WF s0.table := by
    rcases h with rfl | ⟨f, hnd, rfl⟩
    · exact WF_emptyState name schema pk
    · exact WF_loadedState name schema pk f hnd
  exact WF_IndexConsistent _ (WF_runOps ops s0 hwf)

theorem claim_C1_witness :
    IndexConsistent (runOps (emptyState "students" exSchema "id")
      [Op.ins exRow1, Op.ins exRow2, Op.del (Value.vStr "1")]).table :=
  claim_C1_index_consistency "students" exSchema "id" _ _ (Or.inl rfl)

/-- C2: Loading the file produced by save reproduces T's schema,
primary_key_column and row sequence exactly, for a table with 0, 1 or
many rows.  `reload` is the reload path of the repository: the catalog
reads `schema`/`pk_col` from the file and constructs a table whose
`load` reads the file's rows. -/
theorem claim_C2_roundtrip (t : Table) :
    (reload t.name (saveData t)).schema = t.schema ∧
    (reload t.name (saveData t)).pk_col = t.pk_col ∧
    (reload t.name (saveData t)).rows = t.rows :=
  ⟨rfl, rfl, rfl⟩

/-- C3: Inserting a schema-valid row whose stringified primary-key value
already occurs in the index fails with the duplicate-key error and
leaves rows, index and the on-disk file unchanged (the state returned is
exactly the input state: no partial mutation, no persist). -/
theorem claim_C3_duplicate_insert (s : TState) (r : Row) (v : Value)
    (hval : validateErr s.table.schema r = none)
    (hpk : alookup r s.table.pk_col = some v)
    (hdup : (alookup s.table.index (stringify v)).isSome) :
    insertStep s r = (DBResult.err DBError.duplicateKey, s) := by
  simp [insertStep, hval, hpk, hdup]

theorem claim_C3_witness :
    insertStep exState exRow1 = (DBResult.err DBError.duplicateKey, exState) :=
  claim_C3_duplicate_insert exState exRow1 (Value.vStr "1")
    (by decide) (by decide) (by decide)

/-- C10: Calling select with a falsy where-column (absent, i.e. the
default `None`, or the empty string) behaves exactly like the unfiltered
select: it returns all rows in insertion order and ignores the
where-value entirely, because the no-filter branch tests the truthiness
of the column argument. -/
theorem claim_C10_falsy_column (t : Table) (wv : Option Value) :
    selectOp t none wv = Except.ok t.rows ∧
    selectOp t (some "") wv = Except.ok t.rows := by
  constructor
  · rfl
  · simp [selectOp]

/-- C4: For a table satisfying the invariant whose rows all carry the
primary-key column, deleting a primary-key value whose stringification
is absent from the index fails with the key-not-found error and leaves
rows, index and the on-disk file unchanged; deleting a present one
removes exactly one row (the remaining rows are a subsequence of the
original rows, so every remaining row keeps its relative order), after
which the index is rebuilt from the filtered rows and the new state
persisted to the file. -/
theorem claim_C4_delete (s : TState) (v : Value)
    (hwf : WF s.table)
    (hall : ∀ r ∈ s.table.rows, (alookup r s.table.pk_col).isSome) :
    (alookup s.table.index (stringify v) = none →
      deleteStep s v = (DBResult.err DBError.keyNotFound, s)) ∧
    (∀ i, alookup s.table.index (stringify v) = some i →
      ∃ rows', deleteStep s v =
          (DBResult.ok "Row deleted.",
           { table := { s.table with
                        rows := rows'
                        index := rebuildIndex rows' s.table.pk_col }
             disk := some { schema := s.table.schema
                            pk_col := s.table.pk_col
                            rows := rows' } }) ∧
        rows'.Sublist s.table.rows ∧
        rows'.length + 1 = s.table.rows.length) := by
  constructor
  · intro hnone
    simp [deleteStep, hnone]
  · intro i hi
    refine ⟨s.table.rows.filter (fun r => strAt r s.table.pk_col != stringify v),
      ?_, List.filter_sublist _, ?_⟩
    · simp [deleteStep, hi,
        filterRows_of_allSome s.table.pk_col (stringify v) s.table.rows hall,
        saveData]
    · have hfr : findRow s.table.pk_col (stringify v) s.table.rows = some i := by
        rw [← WF_alookup s.table hwf]
        exact hi
      have hmem : stringify v ∈ pkKeys s.table.pk_col s.table.rows := by
        by_contra hnm
        rw [(findRow_eq_none_iff _ _ _).mpr hnm] at hfr
        exact absurd hfr (by simp)
      exact filter_bne_length _ _ _ hwf.1 hmem

theorem claim_C4_witness :
    (alookup exState.table.index (stringify (Value.vStr "1")) = none →
      deleteStep exState (Value.vStr "1") =
        (DBResult.err DBError.keyNotFound, exState)) ∧
    (∀ i, alookup exState.table.index (stringify (Value.vStr "1")) = some i →
      ∃ rows', deleteStep exState (Value.vStr "1") =
          (DBResult.ok "Row deleted.",
           { table := { exState.table with
                        rows := rows'
                        index := rebuildIndex rows' exState.table.pk_col }
             disk := some { schema := exState.table.schema
                            pk_col := exState.table.pk_col
                            rows := rows' } }) ∧
        rows'.Sublist exState.table.rows ∧
        rows'.length + 1 = exState.table.rows.length) :=
  claim_C4_delete exState (Value.vStr "1") (by decide) (by decide)

/-- C7: `validate_schema` (and hence insert) fails with the schema error
precisely when the row's set of column names differs from the schema's:
it succeeds iff the two column-name lists have the same members, so the
order of columns in the row is irrelevant; and a validation failure
makes insert return the schema error with the state — rows, index and
on-disk file — unchanged. -/
theorem claim_C7_validate (s : TState) (r : Row) :
    (validateErr s.table.schema r = none ↔
      (∀ c, c ∈ rowCols r ↔ c ∈ schemaCols s.table.schema)) ∧
    (validateErr s.table.schema r ≠ none →
      insertStep s r = (DBResult.err DBError.schemaError, s)) := by
  constructor
  · exact validateErr_eq_none_iff s.table.schema r
  · intro hne
    obtain ⟨e, he⟩ := Option.ne_none_iff_exists'.mp hne
    have := validateErr_some s.table.schema r e he
    subst this
    simp [insertStep, he]

theorem claim_C7_witness :
    (validateErr exState.table.schema [("id", Value.vStr "9")] ≠ none) ∧
    insertStep exState [("id", Value.vStr "9")] =
      (DBResult.err DBError.schemaError, exState) :=
  ⟨by decide, (claim_C7_validate exState [("id", Value.vStr "9")]).2 (by decide)⟩

/-- C8 (counterexample to the claim as stated): a table whose primary-key
column is the empty string satisfies the index/rows consistency
invariant, contains a row matching the looked-up value, yet select with
`where_column` equal to the primary-key column returns ALL rows (two of
them), not a single-element sequence: the truthiness test of the
no-filter branch fires before the primary-key branch. -/
theorem claim_C8_counterexample :
    IndexConsistent emptyPkTable ∧
    strAt (emptyPkTable.rows.getD 0 []) emptyPkTable.pk_col = "1" ∧
    selectOp emptyPkTable (some emptyPkTable.pk_col) (some (Value.vStr "1")) =
      Except.ok emptyPkTable.rows ∧
    emptyPkTable.rows.length = 2 := by
  decide

/-- C8 (amended): for every table satisfying the invariant whose
primary-key column name is non-empty, select with `where_column` equal
to the primary-key column returns the rows whose stringified primary-key
value equals the stringified where-value — a single-element sequence
containing the unique such row when it exists, the empty sequence
otherwise (the filtered list has at most one element); the lookup goes
through the index, comparing stringified values. -/
theorem claim_C8_pk_select (t : Table) (wv : Option Value)
    (hwf : WF t) (hpk : t.pk_col ≠ "") :
    selectOp t (some t.pk_col) wv =
      Except.ok (t.rows.filter (fun r => strAt r t.pk_col == strOfOpt wv)) ∧
    (t.rows.filter (fun r => strAt r t.pk_col == strOfOpt wv)).length ≤ 1 := by
  have hlk := WF_alookup t hwf (strOfOpt wv)
  cases hf : findRow t.pk_col (strOfOpt wv) t.rows with
  | none =>
      have hnm := (findRow_eq_none_iff _ _ _).mp hf
      have hfil := filter_beq_nil t.pk_col (strOfOpt wv) t.rows hnm
      rw [hf] at hlk
      constructor
      · simp [selectOp, hpk, hlk, hfil]
      · simp [hfil]
  | some j =>
      have hsingle := filter_beq_single t.pk_col (strOfOpt wv) t.rows j hwf.1 hf
      have hget := (findRow_some t.pk_col (strOfOpt wv) t.rows j hf).1
      rw [hf] at hlk
      rw [List.get?_eq_getElem?] at hget
      set r0 := t.rows.getD j [] with hr0
      constructor
      · simp [selectOp, hpk, hlk, hget, hsingle]
      · simp [hsingle]

theorem claim_C8_witness :
    WF exTable ∧ exTable.pk_col ≠ "" ∧
    (selectOp exTable (some exTable.pk_col) (some (Value.vStr "2")) =
      Except.ok (exTable.rows.filter
        (fun r => strAt r exTable.pk_col == strOfOpt (some (Value.vStr "2")))) ∧
    (exTable.rows.filter
        (fun r => strAt r exTable.pk_col == strOfOpt (some (Value.vStr "2")))).length ≤ 1) :=
  ⟨by decide, by decide,
    claim_C8_pk_select exTable (some (Value.vStr "2")) (by decide) (by decide)⟩

/-- C6 (counterexample to the claim as stated): on a one-row table, a
select whose where-column "color" is neither empty nor the primary-key
column and is not in the schema returns ALL rows, not the empty
sequence, when the where-value stringifies to "None": a missing column
read through `row.get` stringifies to "None" and matches. -/
theorem claim_C6_counterexample :
    ("color" ∉ schemaCols oneRowTable.schema) ∧ "color" ≠ "" ∧
    "color" ≠ oneRowTable.pk_col ∧
    selectOp oneRowTable (some "color") (some (Value.vStr "None")) =
      Except.ok oneRowTable.rows ∧
    oneRowTable.rows ≠ [] := by
  decide

/-- C6 (amended): for every table whose rows contain only schema
columns, and every select whose where-column is neither empty nor the
primary-key column and is not in the schema, the result is the empty
sequence for every where-value whose stringification differs from
"None"; when the where-value stringifies to "None" the scan matches
every row lacking the column (a missing value stringifies to "None"), so
the unknown-column filter is not empty in that case. -/
theorem claim_C6_unknown_column (t : Table) (c : String) (wv : Option Value)
    (hc : c ∉ schemaCols t.schema) (hne : c ≠ "") (hnpk : c ≠ t.pk_col)
    (hrows : ∀ r ∈ t.rows, rowCols r ⊆ schemaCols t.schema)
    (hwv : strOfOpt wv ≠ "None") :
    selectOp t (some c) wv = Except.ok [] := by
  simp only [selectOp, if_neg hne, if_neg hnpk, Except.ok.injEq]
  rw [List.filter_eq_nil_iff]
  intro r hr
  have hnc : alookup r c = none := by
    refine alookup_eq_none r c (fun hm => hc ?_)
    exact hrows r hr hm
  rw [strAt_eq_none r c hnc]
  simp only [beq_eq_false_iff_ne, ne_eq, beq_iff_eq]
  exact fun he => hwv he.symm

theorem claim_C6_witness :
    ("color" ∉ schemaCols oneRowTable.schema) ∧ "color" ≠ "" ∧
    "color" ≠ oneRowTable.pk_col ∧
    strOfOpt (some (Value.vStr "blue")) ≠ "None" ∧
    selectOp oneRowTable (some "color") (some (Value.vStr "blue")) =
      Except.ok [] :=
  ⟨by decide, by decide, by decide, by decide,
    claim_C6_unknown_column oneRowTable "color" (some (Value.vStr "blue"))
      (by decide) (by decide) (by decide) (by decide) (by decide)⟩

/-- C9 (counterexample to the claim as stated): create with a
primary-key column absent from the schema does NOT fail with a schema
error: it constructs and registers a table whose primary-key column is
outside its schema. -/
theorem claim_C9_counterexample :
    ("id" ∉ schemaCols [("a", "str")]) ∧
    createTableStep { tables := [], fs := [] } "t" [("a", "str")] "id" =
      Except.ok ("Table 't' created/loaded.",
        { tables := [("t", tableInit "t" [("a", "str")] "id" none)], fs := [] }) ∧
    (tableInit "t" [("a", "str")] "id" none).pk_col ∉
      schemaCols (tableInit "t" [("a", "str")] "id" none).schema := by
  refine ⟨by decide, by rfl, by decide⟩

/-- C9 (amended): create performs no primary-key/schema check: for every
unregistered name and every primary-key column not among the schema's
columns, `create_table` succeeds, returning the creation message and
registering a table whose primary-key column is outside its schema (the
check is recommended by the spec but absent from the reference
behavior). -/
theorem claim_C9_create_no_check (d : DBState) (name : String)
    (schema : Schema) (pk : String)
    (hreg : alookup d.tables name = none) (hpk : pk ∉ schemaCols schema) :
    createTableStep d name schema pk =
      Except.ok ("Table '" ++ name ++ "' created/loaded.",
        { d with tables :=
            d.tables ++ [(name, tableInit name schema pk (alookup d.fs name))] }) ∧
    (tableInit name schema pk (alookup d.fs name)).pk_col ∉
      schemaCols (tableInit name schema pk (alookup d.fs name)).schema := by
  constructor
  · simp [createTableStep, hreg]
  · cases hfs : alookup d.fs name with
    | none => simpa [tableInit] using hpk
    | some f => simpa [tableInit] using hpk

theorem claim_C9_witness :
    createTableStep { tables := [], fs := [] } "w" [("a", "str")] "id" =
      Except.ok ("Table 'w' created/loaded.",
        { tables := [("w", tableInit "w" [("a", "str")] "id" none)], fs := [] }) ∧
    (tableInit "w" [("a", "str")] "id" none).pk_col ∉
      schemaCols (tableInit "w" [("a", "str")] "id" none).schema := by
  have h := claim_C9_create_no_check { tables := [], fs := [] } "w"
    [("a", "str")] "id" (by decide) (by decide)
  simpa using h

/-- C5 (the lazy-load code bug, evaluated at the failing input): on a
fresh catalog holding only a persisted file for "users", `get_table`
takes the lazy-load branch and returns the value of `create_table` —
the creation message string — instead of the newly registered table,
which is nevertheless registered in the catalog. -/
theorem claim_C5_lazy_load_returns_message :
    getTableStep freshCatalog "users" =
      Except.ok (GetResult.message "Table 'users' created/loaded.",
        { tables := [("users", tableInit "users" [("id", "str")] "id" (some usersFile))]
          fs := [("users", usersFile)] }) := by
  rfl
